import Mathlib

set_option maxRecDepth 100000

/-!
Shallow embedding of the core of `src/main.rs` (yubi-rust-tool, the
`ykchalresp` clone): the SHA-1 hash engine, the HMAC-SHA1 MAC engine,
the hex/modhex codec, and the slot-secret resolution policy.

Strings are modelled as lists of Unicode scalar values (`List Nat`),
matching Rust `char`; byte sequences are lists of byte values
(`List Nat`, each below 256).  Where the Rust code observes a string
through its UTF-8 bytes (`str::len`, `str::as_bytes`, `str::bytes`)
the model encodes the scalar values with `utf8Bytes` first.
-/

/-- Scalar values with the Unicode White_Space property, the set tested
by the Rust `char::is_whitespace` used by `str::trim`. -/
def wsB (c : Nat) : Bool :=
  [0x09, 0x0A, 0x0B, 0x0C, 0x0D, 0x20, 0x85, 0xA0, 0x1680,
   0x2000, 0x2001, 0x2002, 0x2003, 0x2004, 0x2005, 0x2006, 0x2007,
   0x2008, 0x2009, 0x200A, 0x2028, 0x2029, 0x202F, 0x205F, 0x3000].contains c

/-- Rust `str::trim`: drop whitespace characters from both ends. -/
def trimCps (l : List Nat) : List Nat :=
  ((l.dropWhile wsB).reverse.dropWhile wsB).reverse

/-- The scalar values of a Lean string literal (used to write the test
vectors and the fixed tables of the source). -/
def strCps (s : String) : List Nat := s.toList.map Char.toNat

/-- UTF-8 encoding of one scalar value; this is how Rust `str` stores a
character, and what `as_bytes`/`bytes`/`len` observe.  The multi-byte
forms are written with `+`; they equal the usual bitwise-or forms
because each added field fits in the free low bits. -/
def utf8Bytes (c : Nat) : List Nat :=
  if c < 0x80 then [c]
  else if c < 0x800 then [0xC0 + c / 64, 0x80 + c % 64]
  else if c < 0x10000 then [0xE0 + c / 4096, 0x80 + c / 64 % 64, 0x80 + c % 64]
  else [0xF0 + c / 262144, 0x80 + c / 4096 % 64, 0x80 + c / 64 % 64, 0x80 + c % 64]

/-! ## Codec -/

/-- The digit table of `to_hex` (the bytes of "0123456789abcdef"). -/
def HEX : List Nat := strCps "0123456789abcdef"

/-- `to_hex`: per input byte, two lowercase hex characters, most
significant nibble first. -/
def to_hex : List Nat → List Nat
  | [] => []
  | b :: rest => HEX.getD (b >>> 4) 0 :: HEX.getD (b &&& 0x0f) 0 :: to_hex rest

/-- The two failure messages of `from_hex`, as an error kind. -/
inductive HexError where
  | oddLength : HexError
  | invalidDigit : Nat → HexError
deriving DecidableEq, Repr

/-- The inner closure `val` of `from_hex`: hex value of one byte
(digits 48-57, lowercase 97-102, uppercase 65-70), `none` where the
source returns the invalid-digit error. -/
def hexVal (b : Nat) : Option Nat :=
  if 48 ≤ b ∧ b ≤ 57 then some (b - 48)
  else if 97 ≤ b ∧ b ≤ 102 then some (10 + b - 97)
  else if 65 ≤ b ∧ b ≤ 70 then some (10 + b - 65)
  else none

/-- The decoding loop of `from_hex`: two input bytes per output byte,
output byte `(hi << 4) | lo`.  The one-byte case is unreachable from
`from_hex`, which checks even length first. -/
def decodePairs : List Nat → Except HexError (List Nat)
  | [] => .ok []
  | [b] => .error (.invalidDigit b)
  | b1 :: b2 :: rest =>
    match hexVal b1 with
    | none => .error (.invalidDigit b1)
    | some hi =>
      match hexVal b2 with
      | none => .error (.invalidDigit b2)
      | some lo =>
        match decodePairs rest with
        | .ok out => .ok (((hi <<< 4) ||| lo) :: out)
        | .error e => .error e

/-- `from_hex`: trim the input, reject odd byte length, decode the hex
byte pairs. -/
def from_hex (s : List Nat) : Except HexError (List Nat) :=
  let t := trimCps s
  let bytes := t.flatMap utf8Bytes
  if bytes.length % 2 ≠ 0 then .error .oddLength
  else decodePairs bytes

/-- The table `MODHEX` of `to_modhex` (the bytes of "cbdefghijklnrtuv"). -/
def MODHEX : List Nat := strCps "cbdefghijklnrtuv"

/-- `to_modhex`: map each hex character to the modhex symbol indexed by
its nibble value; silently skip anything else (the `continue` arm). -/
def to_modhex : List Nat → List Nat
  | [] => []
  | b :: rest =>
    if 48 ≤ b ∧ b ≤ 57 then MODHEX.getD (b - 48) 0 :: to_modhex rest
    else if 97 ≤ b ∧ b ≤ 102 then MODHEX.getD (10 + b - 97) 0 :: to_modhex rest
    else if 65 ≤ b ∧ b ≤ 70 then MODHEX.getD (10 + b - 65) 0 :: to_modhex rest
    else to_modhex rest

/-! ## Hash engine (SHA-1) -/

/-- Rust `u32::rotate_left` on values below 2^32. -/
def rotl (n x : Nat) : Nat := ((x <<< n) ||| (x >>> (32 - n))) % 4294967296

/-- 32-bit bitwise complement (Rust `!` on `u32`). -/
def compl32 (x : Nat) : Nat := x ^^^ 0xFFFFFFFF

/-- `u32::to_be_bytes`. -/
def be32 (x : Nat) : List Nat :=
  [(x >>> 24) % 256, (x >>> 16) % 256, (x >>> 8) % 256, x % 256]

/-- `u64::to_be_bytes`. -/
def be64 (x : Nat) : List Nat :=
  [(x >>> 56) % 256, (x >>> 48) % 256, (x >>> 40) % 256, (x >>> 32) % 256,
   (x >>> 24) % 256, (x >>> 16) % 256, (x >>> 8) % 256, x % 256]

/-- The number of zero bytes appended by the padding loop
(`while data.len() % 64 != 56 push 0`), for a current length `len`:
the least count making the length congruent to 56 mod 64. -/
def padZeroCount (len : Nat) : Nat := (56 + 64 - len % 64) % 64

/-- The 16 initial schedule words of one 64-byte chunk: four bytes each,
big-endian. -/
def chunkWords : List Nat → List Nat
  | b0 :: b1 :: b2 :: b3 :: rest =>
    ((b0 <<< 24) ||| (b1 <<< 16) ||| (b2 <<< 8) ||| b3) :: chunkWords rest
  | _ => []

/-- Extend the schedule by `k` words, each
`rotl1 (w[i-3] xor w[i-8] xor w[i-14] xor w[i-16])` where `i` is the
current length. -/
def extendW (w : List Nat) : Nat → List Nat
  | 0 => w
  | k + 1 =>
    extendW
      (w ++ [rotl 1 (w.getD (w.length - 3) 0 ^^^ w.getD (w.length - 8) 0 ^^^
                     w.getD (w.length - 14) 0 ^^^ w.getD (w.length - 16) 0)]) k

/-- The five working variables / running state words of SHA-1. -/
structure Sha1State where
  a : Nat
  b : Nat
  c : Nat
  d : Nat
  e : Nat
deriving DecidableEq, Repr

/-- One of the 80 rounds: nonlinear function and constant selected by
round-index range, then the rotation of the working variables. -/
def sha1Round (w : List Nat) (i : Nat) (s : Sha1State) : Sha1State :=
  let fk : Nat × Nat :=
    if i < 20 then ((s.b &&& s.c) ||| (compl32 s.b &&& s.d), 0x5A827999)
    else if i < 40 then (s.b ^^^ s.c ^^^ s.d, 0x6ED9EBA1)
    else if i < 60 then ((s.b &&& s.c) ||| (s.b &&& s.d) ||| (s.c &&& s.d), 0x8F1BBCDC)
    else (s.b ^^^ s.c ^^^ s.d, 0xCA62C1D6)
  let temp :=
    ((((rotl 5 s.a + fk.1) % 4294967296 + s.e) % 4294967296 + fk.2) % 4294967296
      + w.getD i 0) % 4294967296
  ⟨temp, s.a, rotl 30 s.b, s.c, s.d⟩

/-- Run rounds `i, i+1, ..., i+n-1`. -/
def sha1Rounds (w : List Nat) : Nat → Nat → Sha1State → Sha1State
  | _, 0, s => s
  | i, n + 1, s => sha1Rounds w (i + 1) n (sha1Round w i s)

/-- Process one 64-byte chunk: 80-word schedule, 80 rounds, wraparound
addition into the running state. -/
def processChunk (h : Sha1State) (chunk : List Nat) : Sha1State :=
  let w := extendW (chunkWords chunk) 64
  let s := sha1Rounds w 0 80 h
  ⟨(h.a + s.a) % 4294967296, (h.b + s.b) % 4294967296, (h.c + s.c) % 4294967296,
   (h.d + s.d) % 4294967296, (h.e + s.e) % 4294967296⟩

/-- `data.chunks(64)` processing; the first argument is fuel, always at
least the number of chunks when called with the data length. -/
def processChunks : Nat → Sha1State → List Nat → Sha1State
  | 0, h, _ => h
  | _ + 1, h, [] => h
  | fuel + 1, h, data => processChunks fuel (processChunk h (data.take 64)) (data.drop 64)

/-- The fixed SHA-1 initialization constants. -/
def sha1Init : Sha1State := ⟨0x67452301, 0xEFCDAB89, 0x98BADCFE, 0x10325476, 0xC3D2E1F0⟩

/-- The digest: the five state words, big-endian, concatenated. -/
def stateBytes (s : Sha1State) : List Nat :=
  be32 s.a ++ be32 s.b ++ be32 s.c ++ be32 s.d ++ be32 s.e

/-- `sha1`: padding (one 0x80 byte, zeros to 56 mod 64, then the message
bit length as 64-bit big-endian), then chunk processing. -/
def sha1 (message : List Nat) : List Nat :=
  let ml := (message.length * 8) % 18446744073709551616
  let data := message ++ 0x80 :: (List.replicate (padZeroCount (message.length + 1)) 0 ++ be64 ml)
  stateBytes (processChunks data.length sha1Init data)

/-! ## MAC engine (HMAC-SHA1) -/

/-- Rust `Vec::resize(n, 0)`: truncate, or extend with zeros, to length
`n`. -/
def vecResize (v : List Nat) (n : Nat) : List Nat :=
  v.take n ++ List.replicate (n - v.length) 0

/-- `hmac_sha1`: hash over-long keys, resize to the 64-byte block, xor
with the ipad/opad constants, inner and outer hash. -/
def hmac_sha1 (key message : List Nat) : List Nat :=
  let k0 := if 64 < key.length then sha1 key else key
  let k := vecResize k0 64
  let ipad := k.map (fun b => b ^^^ 0x36)
  let opad := k.map (fun b => b ^^^ 0x5c)
  let innerHash := sha1 (ipad ++ message)
  sha1 (opad ++ innerHash)

/-! ## Digest length -/

theorem stateBytes_length (s : Sha1State) : (stateBytes s).length = 20 := by
  simp [stateBytes, be32]

/-- The hash engine always produces exactly 20 bytes. -/
theorem sha1_length (m : List Nat) : (sha1 m).length = 20 := by
  simp only [sha1]
  exact stateBytes_length _

/-! ## Claims about the hash and MAC engines -/

/-- Claim C1: the hash of the empty byte sequence is the 20-byte digest
with lowercase hex rendering da39a3ee5e6b4b0d3255bfef95601890afd80709;
being a function of the model, `sha1` is total and deterministic. -/
theorem claim1_sha1_empty :
    sha1 [] = [0xda, 0x39, 0xa3, 0xee, 0x5e, 0x6b, 0x4b, 0x0d, 0x32, 0x55,
               0xbf, 0xef, 0x95, 0x60, 0x18, 0x90, 0xaf, 0xd8, 0x07, 0x09] ∧
    (sha1 []).length = 20 ∧
    to_hex (sha1 []) = strCps "da39a3ee5e6b4b0d3255bfef95601890afd80709" := by
  refine ⟨by decide, sha1_length [], by decide⟩

/-- Claim C2: the MAC of key "key" and message "The quick brown fox
jumps over the lazy dog" is the 20-byte digest with lowercase hex
rendering de7c9b85b8b78aa6bc8a7a36f70a90701c9db4d9. -/
theorem claim2_hmac_vector :
    to_hex (hmac_sha1 (strCps "key") (strCps "The quick brown fox jumps over the lazy dog"))
      = strCps "de7c9b85b8b78aa6bc8a7a36f70a90701c9db4d9" ∧
    (hmac_sha1 (strCps "key") (strCps "The quick brown fox jumps over the lazy dog")).length
      = 20 := by
  constructor
  · decide
  · simp only [hmac_sha1]
    exact sha1_length _

/-- Claim C3: keys longer than 64 bytes are replaced by their 20-byte
hash and zero-padded to 64 (so the MAC agrees with the MAC under the
pre-hashed-and-padded key), and keys of 64 bytes or fewer are
zero-padded to 64 without truncation (so padding the key explicitly
leaves the MAC unchanged). -/
theorem claim3_key_normalization :
    (∀ key msg : List Nat, 64 < key.length →
      hmac_sha1 key msg = hmac_sha1 (sha1 key ++ List.replicate 44 0) msg) ∧
    (∀ key msg : List Nat, key.length ≤ 64 →
      hmac_sha1 key msg = hmac_sha1 (key ++ List.replicate (64 - key.length) 0) msg) := by
  constructor
  · intro key msg h
    have hl : (sha1 key).length = 20 := sha1_length key
    have hlen : (sha1 key ++ List.replicate 44 0).length = 64 := by
      simp [hl]
    have e1 : vecResize (sha1 key) 64 = sha1 key ++ List.replicate 44 0 := by
      unfold vecResize
      rw [List.take_of_length_le (by omega), hl]
    have e2 : vecResize (sha1 key ++ List.replicate 44 0) 64
        = sha1 key ++ List.replicate 44 0 := by
      unfold vecResize
      rw [List.take_of_length_le (le_of_eq hlen), hlen]
      simp
    have hneg : ¬ 64 < (sha1 key ++ List.replicate 44 0).length := by
      rw [hlen]
      omega
    simp only [hmac_sha1]
    rw [if_pos h, if_neg hneg, e1, e2]
  · intro key msg h
    have hlen : (key ++ List.replicate (64 - key.length) 0).length = 64 := by
      simp
      omega
    have e1 : vecResize key 64 = key ++ List.replicate (64 - key.length) 0 := by
      unfold vecResize
      rw [List.take_of_length_le h]
    have e2 : vecResize (key ++ List.replicate (64 - key.length) 0) 64
        = key ++ List.replicate (64 - key.length) 0 := by
      unfold vecResize
      rw [List.take_of_length_le (le_of_eq hlen), hlen]
      simp
    have hneg1 : ¬ 64 < key.length := by omega
    have hneg2 : ¬ 64 < (key ++ List.replicate (64 - key.length) 0).length := by
      rw [hlen]
      omega
    simp only [hmac_sha1]
    rw [if_neg hneg1, if_neg hneg2, e1, e2]

/-- Witness for claim C3 at a key of length 100. -/
theorem claim3_witness :
    hmac_sha1 (List.replicate 100 7) [1, 2, 3] =
      hmac_sha1 (sha1 (List.replicate 100 7) ++ List.replicate 44 0) [1, 2, 3] :=
  claim3_key_normalization.1 (List.replicate 100 7) [1, 2, 3] (by decide)

/-! ## Codec facts -/

/-- The character class written [0-9a-fA-F] in the spec, over scalar
values: the class accepted by the codec. -/
def isHexCp (c : Nat) : Prop :=
  (48 ≤ c ∧ c ≤ 57) ∨ (97 ≤ c ∧ c ≤ 102) ∨ (65 ≤ c ∧ c ≤ 70)

instance instDecIsHexCp (c : Nat) : Decidable (isHexCp c) := by
  unfold isHexCp
  infer_instance

theorem isHexCp_lt (c : Nat) (h : isHexCp c) : c < 103 := by
  rcases h with ⟨h1, h2⟩ | ⟨h1, h2⟩ | ⟨h1, h2⟩ <;> omega

theorem hex_not_ws_aux : ∀ c < 103, isHexCp c → wsB c = false := by decide

theorem hex_not_ws (c : Nat) (h : isHexCp c) : wsB c = false :=
  hex_not_ws_aux c (isHexCp_lt c h) h

theorem utf8_ascii (c : Nat) (h : c < 128) : utf8Bytes c = [c] := by
  unfold utf8Bytes
  rw [if_pos h]

theorem flatMap_ascii (l : List Nat) (h : ∀ c ∈ l, c < 128) :
    l.flatMap utf8Bytes = l := by
  induction l with
  | nil => rfl
  | cons a t ih =>
    rw [List.flatMap_cons, utf8_ascii a (h a (by simp)),
      ih (fun c hc => h c (by simp [hc]))]
    rfl

theorem dropWhile_eq_self_of_all (l : List Nat) (h : ∀ c ∈ l, wsB c = false) :
    l.dropWhile wsB = l := by
  cases l with
  | nil => rfl
  | cons a t =>
    rw [List.dropWhile_cons, h a (by simp)]
    simp

theorem trim_eq_self (l : List Nat) (h : ∀ c ∈ l, wsB c = false) : trimCps l = l := by
  unfold trimCps
  rw [dropWhile_eq_self_of_all l h,
    dropWhile_eq_self_of_all _ (fun c hc => h c (List.mem_reverse.mp hc)),
    List.reverse_reverse]

/-- Per byte below 256: the two characters `to_hex` emits are hex
characters, decode back to the two nibbles, and the nibbles reassemble
the byte. -/
theorem to_hex_byte_facts : ∀ b < 256,
    isHexCp (HEX.getD (b >>> 4) 0) ∧ isHexCp (HEX.getD (b &&& 0x0f) 0) ∧
    hexVal (HEX.getD (b >>> 4) 0) = some (b >>> 4) ∧
    hexVal (HEX.getD (b &&& 0x0f) 0) = some (b &&& 0x0f) ∧
    (((b >>> 4) <<< 4) ||| (b &&& 0x0f)) = b := by decide

theorem to_hex_props (bs : List Nat) (hb : ∀ b ∈ bs, b < 256) :
    (∀ c ∈ to_hex bs, isHexCp c) ∧ (to_hex bs).length = 2 * bs.length := by
  induction bs with
  | nil => simp [to_hex]
  | cons b t ih =>
    have hb0 : b < 256 := hb b (by simp)
    obtain ⟨ih1, ih2⟩ := ih (fun x hx => hb x (by simp [hx]))
    obtain ⟨f1, f2, _, _, _⟩ := to_hex_byte_facts b hb0
    constructor
    · intro c hc
      simp only [to_hex, List.mem_cons] at hc
      rcases hc with rfl | rfl | hc
      · exact f1
      · exact f2
      · exact ih1 c hc
    · simp only [to_hex, List.length_cons, ih2]
      omega

theorem decodePairs_to_hex (bs : List Nat) (hb : ∀ b ∈ bs, b < 256) :
    decodePairs (to_hex bs) = .ok bs := by
  induction bs with
  | nil => rfl
  | cons b t ih =>
    have hb0 : b < 256 := hb b (by simp)
    obtain ⟨_, _, h3, h4, h5⟩ := to_hex_byte_facts b hb0
    simp only [to_hex, decodePairs, h3, h4, ih (fun x hx => hb x (by simp [hx])), h5]

/-- Claim C4: decoding the hex encoding of any byte sequence gives the
bytes back. -/
theorem claim4_roundtrip (bs : List Nat) (hb : ∀ b ∈ bs, b < 256) :
    from_hex (to_hex bs) = .ok bs := by
  obtain ⟨hhex, hlen⟩ := to_hex_props bs hb
  have htrim : trimCps (to_hex bs) = to_hex bs :=
    trim_eq_self _ (fun c hc => hex_not_ws c (hhex c hc))
  have hascii : (to_hex bs).flatMap utf8Bytes = to_hex bs :=
    flatMap_ascii _ (fun c hc => by have := isHexCp_lt c (hhex c hc); omega)
  have heven : ¬ (to_hex bs).length % 2 ≠ 0 := by
    rw [hlen]
    omega
  simp only [from_hex, htrim, hascii]
  rw [if_neg heven]
  exact decodePairs_to_hex bs hb

/-- Witness for claim C4 at the bytes of 0xdeadbeef. -/
theorem claim4_witness :
    from_hex (to_hex [0xde, 0xad, 0xbe, 0xef]) = .ok [0xde, 0xad, 0xbe, 0xef] :=
  claim4_roundtrip [0xde, 0xad, 0xbe, 0xef] (by decide)

/-! ## Spec-side decoding (claim C5) -/

/-- Spec-side case folding of uppercase letters. -/
def lowerCp (c : Nat) : Nat := if 65 ≤ c ∧ c ≤ 90 then c + 32 else c

/-- Spec-side nibble value of a hex character: the index of its folded
form in 0123456789abcdef. -/
def specNibble (c : Nat) : Nat := (strCps "0123456789abcdef").indexOf (lowerCp c)

/-- Spec-side decoding: each adjacent character pair becomes one byte,
case-insensitively, most significant nibble first. -/
def specDecode : List Nat → List Nat
  | c1 :: c2 :: rest => (16 * specNibble c1 + specNibble c2) :: specDecode rest
  | _ => []

theorem hexVal_spec_aux : ∀ c < 103, isHexCp c → hexVal c = some (specNibble c) := by decide

theorem hexVal_spec (c : Nat) (h : isHexCp c) : hexVal c = some (specNibble c) :=
  hexVal_spec_aux c (isHexCp_lt c h) h

theorem specNibble_lt_aux : ∀ c < 103, isHexCp c → specNibble c < 16 := by decide

theorem specNibble_lt (c : Nat) (h : isHexCp c) : specNibble c < 16 :=
  specNibble_lt_aux c (isHexCp_lt c h) h

theorem nibble_assemble : ∀ hi < 16, ∀ lo < 16, ((hi <<< 4) ||| lo) = 16 * hi + lo := by
  decide

theorem hexVal_none_of (c : Nat) (h : ¬ isHexCp c) : hexVal c = none := by
  unfold hexVal
  rw [if_neg (fun hh => h (Or.inl hh)), if_neg (fun hh => h (Or.inr (Or.inl hh))),
    if_neg (fun hh => h (Or.inr (Or.inr hh)))]

theorem decodePairs_ok_of_hex : ∀ l : List Nat, (∀ c ∈ l, isHexCp c) →
    l.length % 2 = 0 → decodePairs l = .ok (specDecode l)
  | [], _, _ => rfl
  | [b], _, heven => by simp at heven
  | b1 :: b2 :: rest, hhex, heven => by
    have h1 : isHexCp b1 := hhex b1 (by simp)
    have h2 : isHexCp b2 := hhex b2 (by simp)
    have hrest : decodePairs rest = .ok (specDecode rest) := by
      apply decodePairs_ok_of_hex rest (fun c hc => hhex c (by simp [hc]))
      simp only [List.length_cons] at heven
      omega
    simp only [decodePairs, hexVal_spec b1 h1, hexVal_spec b2 h2, hrest, specDecode]
    rw [nibble_assemble _ (specNibble_lt b1 h1) _ (specNibble_lt b2 h2)]

theorem decodePairs_hex_of_ok : ∀ l v : List Nat, decodePairs l = .ok v →
    ∀ b ∈ l, hexVal b ≠ none
  | [], _, _ => by simp
  | [b], v, h => by simp [decodePairs] at h
  | b1 :: b2 :: rest, v, h => by
    cases hv1 : hexVal b1 with
    | none => simp [decodePairs, hv1] at h
    | some hi =>
      cases hv2 : hexVal b2 with
      | none => simp [decodePairs, hv1, hv2] at h
      | some lo =>
        cases hres : decodePairs rest with
        | error e => simp [decodePairs, hv1, hv2, hres] at h
        | ok out =>
          intro b hb
          rcases List.mem_cons.mp hb with rfl | hb2
          · simp [hv1]
          · rcases List.mem_cons.mp hb2 with rfl | hbr
            · simp [hv2]
            · exact decodePairs_hex_of_ok rest out hres b hbr

theorem utf8_big (c : Nat) (hc : 128 ≤ c) : ∀ b ∈ utf8Bytes c, 128 ≤ b := by
  intro b hb
  unfold utf8Bytes at hb
  split_ifs at hb with h1 h2 h3
  · simp at hb
    omega
  · simp at hb
    rcases hb with rfl | rfl <;> omega
  · simp at hb
    rcases hb with rfl | rfl | rfl <;> omega
  · simp at hb
    rcases hb with rfl | rfl | rfl | rfl <;> omega

theorem utf8_ne_nil (c : Nat) : utf8Bytes c ≠ [] := by
  unfold utf8Bytes
  split_ifs <;> simp

theorem flatMap_hex (l : List Nat) (h : ∀ c ∈ l, isHexCp c) :
    l.flatMap utf8Bytes = l :=
  flatMap_ascii l (fun c hc => by have := isHexCp_lt c (h c hc); omega)

/-- Counterexample to claim C5 as stated: the input " ab " has even
length and contains the space character, which is outside [0-9a-fA-F],
yet `from_hex` succeeds on it (the source trims first). -/
theorem claim5_counterexample :
    from_hex (strCps " ab ") = .ok [0xab] ∧
    (strCps " ab ").length % 2 = 0 ∧
    32 ∈ strCps " ab " ∧ ¬ isHexCp 32 :=
  ⟨rfl, by decide, by decide, by decide⟩

/-- Claim C5 as amended: `from_hex` first trims leading and trailing
whitespace; it fails exactly when the trimmed remainder has odd length
or contains a character outside [0-9a-fA-F], and otherwise decodes each
adjacent pair of the trimmed remainder case-insensitively to one byte,
most significant nibble first. -/
theorem claim5_amended (s : List Nat) :
    ((from_hex s).isOk = false ↔
      ((trimCps s).length % 2 = 1 ∨ ∃ c ∈ trimCps s, ¬ isHexCp c)) ∧
    ((trimCps s).length % 2 = 0 ∧ (∀ c ∈ trimCps s, isHexCp c) →
      from_hex s = .ok (specDecode (trimCps s))) := by
  have hsucc : (trimCps s).length % 2 = 0 → (∀ c ∈ trimCps s, isHexCp c) →
      from_hex s = .ok (specDecode (trimCps s)) := by
    intro heven hall
    have hB : (trimCps s).flatMap utf8Bytes = trimCps s := flatMap_hex _ hall
    simp only [from_hex, hB]
    have hne : ¬ (trimCps s).length % 2 ≠ 0 := by omega
    rw [if_neg hne]
    exact decodePairs_ok_of_hex _ hall heven
  refine ⟨⟨?_, ?_⟩, ?_⟩
  · intro hfail
    by_contra hcon
    push_neg at hcon
    obtain ⟨hodd, hall⟩ := hcon
    rw [hsucc (by omega) hall] at hfail
    simp [Except.isOk, Except.toBool] at hfail
  · intro hcond
    by_cases hall : ∀ c ∈ trimCps s, isHexCp c
    · rcases hcond with hodd | ⟨c, hc, hnh⟩
      · have hB : (trimCps s).flatMap utf8Bytes = trimCps s := flatMap_hex _ hall
        simp only [from_hex, hB]
        rw [if_pos (by omega)]
        rfl
      · exact absurd (hall c hc) hnh
    · push_neg at hall
      obtain ⟨c, hc, hnh⟩ := hall
      have hbad : ∃ b ∈ (trimCps s).flatMap utf8Bytes, hexVal b = none := by
        by_cases hsmall : c < 128
        · refine ⟨c, List.mem_flatMap.mpr ⟨c, hc, ?_⟩, hexVal_none_of c hnh⟩
          rw [utf8_ascii c hsmall]
          simp
        · obtain ⟨b, hb⟩ : ∃ b, b ∈ utf8Bytes c := by
            cases hu : utf8Bytes c with
            | nil => exact absurd hu (utf8_ne_nil c)
            | cons x xs => exact ⟨x, by simp [hu]⟩
          refine ⟨b, List.mem_flatMap.mpr ⟨c, hc, hb⟩, ?_⟩
          have hbig : 128 ≤ b := utf8_big c (by omega) b hb
          apply hexVal_none_of
          unfold isHexCp
          omega
      simp only [from_hex]
      by_cases hlen : ((trimCps s).flatMap utf8Bytes).length % 2 ≠ 0
      · rw [if_pos hlen]
        rfl
      · rw [if_neg hlen]
        obtain ⟨b, hbmem, hbnone⟩ := hbad
        cases hres : decodePairs ((trimCps s).flatMap utf8Bytes) with
        | error e => rfl
        | ok v => exact absurd hbnone (decodePairs_hex_of_ok _ v hres b hbmem)
  · intro h
    exact hsucc h.1 h.2

/-- Witness for the amended claim C5 on the mixed-case input " aB34 ". -/
theorem claim5_witness :
    from_hex (strCps " aB34 ") = .ok (specDecode (trimCps (strCps " aB34 "))) :=
  (claim5_amended (strCps " aB34 ")).2 ⟨by decide, by decide⟩

/-! ## Modhex (claims C6, C7) -/

/-- The fixed 16-symbol modhex alphabet of the spec. -/
def modhexAlphabet : List Nat := strCps "cbdefghijklnrtuv"

/-- Spec-side per-character modhex mapping: hex characters go to the
symbol of the fixed table indexed by their nibble value, everything
else is skipped. -/
def specModhexMap (c : Nat) : Option Nat :=
  if isHexCp c then some (modhexAlphabet.getD (specNibble c) 0) else none

theorem to_modhex_cons (a : Nat) (t : List Nat) :
    to_modhex (a :: t) = to_modhex [a] ++ to_modhex t := by
  simp only [to_modhex]
  split_ifs <;> simp

theorem modhex_char_spec : ∀ a < 103, isHexCp a →
    to_modhex [a] = [modhexAlphabet.getD (specNibble a) 0] := by decide

theorem modhexAlphabet_getD_mem : ∀ i < 16, modhexAlphabet.getD i 0 ∈ modhexAlphabet := by
  decide

theorem to_modhex_single_nonhex (a : Nat) (h : ¬ isHexCp a) : to_modhex [a] = [] := by
  simp only [to_modhex]
  rw [if_neg (fun hh => h (Or.inl hh)), if_neg (fun hh => h (Or.inr (Or.inl hh))),
    if_neg (fun hh => h (Or.inr (Or.inr hh)))]

/-- Counterexample to claim C6 as stated: the characters a (97) and
A (65) are distinct members of the valid-hex domain [0-9a-fA-F], yet
they map to the same modhex character, so the per-character mapping is
not injective on that domain. -/
theorem claim6_counterexample :
    to_modhex [97] = to_modhex [65] ∧ (97 : Nat) ≠ 65 ∧ isHexCp 97 ∧ isHexCp 65 := by
  decide

theorem to_modhex_hex_props (h : List Nat) (hhex : ∀ c ∈ h, isHexCp c) :
    (to_modhex h).length = h.length ∧ ∀ c ∈ to_modhex h, c ∈ modhexAlphabet := by
  induction h with
  | nil => simp [to_modhex]
  | cons a t ih =>
    have ha : isHexCp a := hhex a (by simp)
    obtain ⟨ih1, ih2⟩ := ih (fun c hc => hhex c (by simp [hc]))
    have hs := modhex_char_spec a (isHexCp_lt a ha) ha
    rw [to_modhex_cons, hs]
    constructor
    · simp [ih1]
    · intro c hc
      rcases List.mem_append.mp hc with hc1 | hc2
      · rcases List.mem_singleton.mp hc1 with rfl
        exact modhexAlphabet_getD_mem _ (specNibble_lt a ha)
      · exact ih2 c hc2

/-- Claim C6 as amended: for valid hex strings `to_modhex` preserves
the length and emits only characters of the fixed modhex alphabet, and
the per-character mapping is injective on the lowercase hex domain
[0-9a-f] (uppercase letters collide with their lowercase forms, since
the mapping is applied case-insensitively). -/
theorem claim6_amended (h : List Nat) (heven : h.length % 2 = 0)
    (hhex : ∀ c ∈ h, isHexCp c) :
    (to_modhex h).length = h.length ∧
    (∀ c ∈ to_modhex h, c ∈ modhexAlphabet) ∧
    (∀ c1 ∈ strCps "0123456789abcdef", ∀ c2 ∈ strCps "0123456789abcdef",
      to_modhex [c1] = to_modhex [c2] → c1 = c2) := by
  obtain ⟨h1, h2⟩ := to_modhex_hex_props h hhex
  exact ⟨h1, h2, by decide⟩

/-- Witness for the amended claim C6 on the valid hex string deadbeef. -/
theorem claim6_witness :
    (to_modhex (strCps "deadbeef")).length = (strCps "deadbeef").length ∧
    (∀ c ∈ to_modhex (strCps "deadbeef"), c ∈ modhexAlphabet) ∧
    (∀ c1 ∈ strCps "0123456789abcdef", ∀ c2 ∈ strCps "0123456789abcdef",
      to_modhex [c1] = to_modhex [c2] → c1 = c2) :=
  claim6_amended (strCps "deadbeef") (by decide) (by decide)

/-- Claim C7: `to_modhex` emits, in order, the image of every hex
character under the fixed nibble table and silently skips all other
characters; on deadbeef it yields tultnuuv. -/
theorem claim7_modhex_map :
    (∀ s : List Nat, to_modhex s = s.filterMap specModhexMap) ∧
    to_modhex (strCps "deadbeef") = strCps "tultnuuv" := by
  constructor
  · intro s
    induction s with
    | nil => rfl
    | cons a t ih =>
      by_cases ha : isHexCp a
      · have hs := modhex_char_spec a (isHexCp_lt a ha) ha
        rw [to_modhex_cons, hs, ih, List.filterMap_cons]
        simp only [specModhexMap]
        rw [if_pos ha]
        simp
      · rw [to_modhex_cons, to_modhex_single_nonhex a ha, ih, List.filterMap_cons]
        simp only [specModhexMap]
        rw [if_neg ha]
        simp
  · decide

/-! ## Secret resolution policy (claims C8, C9) -/

/-- The distinct failure messages of `load_slot_secret`, as error
kinds; `invalidEncoding` carries the offending source (environment
variable name or file path). -/
inductive ResolutionError where
  | invalidSlot : ResolutionError
  | invalidEncoding : String → HexError → ResolutionError
  | secretNotFound : Nat → String → String → ResolutionError
  | homeUnresolved : ResolutionError
deriving DecidableEq, Repr

/-- An external read performed by the policy, for the event trace. -/
inductive Event where
  | envRead : String → Event
  | fileRead : String → Event
deriving DecidableEq, Repr

/-- The slot-specific environment variable name selected by the first
match of `load_slot_secret` (only called for slots 1 and 2). -/
def slotEnvName (slot : Nat) : String :=
  if slot = 1 then "YKCHALRESP_SLOT1_KEY" else "YKCHALRESP_SLOT2_KEY"

/-- The shared body of `load_slot_secret` after the slot has been
validated: environment variable first, then the config file under the
home directory (`dirs_home` is inlined as the read of HOME).  Returns
the result together with the trace of external reads, in order. -/
def resolveSlot (slot : Nat) (envName fileName : String)
    (env : String → Option String) (readFile : String → Option String) :
    Except ResolutionError (List Nat) × List Event :=
  match env envName with
  | some val =>
    ((from_hex (strCps val)).mapError (ResolutionError.invalidEncoding envName),
     [Event.envRead envName])
  | none =>
    match env "HOME" with
    | none =>
      (Except.error ResolutionError.homeUnresolved,
       [Event.envRead envName, Event.envRead "HOME"])
    | some home =>
      let path := home ++ "/.config/ykchalresp/" ++ fileName
      match readFile path with
      | none =>
        (Except.error (ResolutionError.secretNotFound slot envName path),
         [Event.envRead envName, Event.envRead "HOME", Event.fileRead path])
      | some content =>
        ((from_hex (trimCps (strCps content))).mapError (ResolutionError.invalidEncoding path),
         [Event.envRead envName, Event.envRead "HOME", Event.fileRead path])

/-- `load_slot_secret`: validate the slot, then resolve. -/
def load_slot_secret (slot : Nat) (env : String → Option String)
    (readFile : String → Option String) :
    Except ResolutionError (List Nat) × List Event :=
  match slot with
  | 1 => resolveSlot 1 "YKCHALRESP_SLOT1_KEY" "slot1.key" env readFile
  | 2 => resolveSlot 2 "YKCHALRESP_SLOT2_KEY" "slot2.key" env readFile
  | _ => (Except.error ResolutionError.invalidSlot, [])

/-- Claim C8: for a valid slot whose environment variable is present,
the result is entirely determined by the variable: the decoded value on
valid hex and `invalidEncoding` naming the variable otherwise,
regardless of the filesystem, and the variable read is the only
external read performed. -/
theorem claim8_env_preference (slot : Nat) (hslot : slot = 1 ∨ slot = 2)
    (env : String → Option String) (readFile : String → Option String)
    (val : String) (henv : env (slotEnvName slot) = some val) :
    load_slot_secret slot env readFile =
      ((from_hex (strCps val)).mapError (ResolutionError.invalidEncoding (slotEnvName slot)),
       [Event.envRead (slotEnvName slot)]) := by
  rcases hslot with rfl | rfl
  · have hname : slotEnvName 1 = "YKCHALRESP_SLOT1_KEY" := rfl
    rw [hname] at henv ⊢
    simp only [load_slot_secret, resolveSlot, henv]
  · have hname : slotEnvName 2 = "YKCHALRESP_SLOT2_KEY" := rfl
    rw [hname] at henv ⊢
    simp only [load_slot_secret, resolveSlot, henv]

/-- Witness for claim C8: slot 1 with both sources populated and
differing; the environment value wins and only the variable is read. -/
theorem claim8_witness :
    load_slot_secret 1
      (fun n => if n = "YKCHALRESP_SLOT1_KEY" then some "deadbeef" else none)
      (fun _ => some "00")
      = (Except.ok [0xde, 0xad, 0xbe, 0xef], [Event.envRead "YKCHALRESP_SLOT1_KEY"]) := by
  have h := claim8_env_preference 1 (Or.inl rfl)
    (fun n => if n = "YKCHALRESP_SLOT1_KEY" then some "deadbeef" else none)
    (fun _ => some "00") "deadbeef" rfl
  rw [h]
  rfl

/-- Claim C9: any slot outside {1, 2} fails with `invalidSlot`, with an
empty read trace: no environment, home or file lookup is performed,
whatever the external world contains. -/
theorem claim9_invalid_slot (slot : Nat) (h1 : slot ≠ 1) (h2 : slot ≠ 2)
    (env : String → Option String) (readFile : String → Option String) :
    load_slot_secret slot env readFile = (Except.error ResolutionError.invalidSlot, []) := by
  match slot, h1, h2 with
  | 0, _, _ => rfl
  | 1, hh, _ => exact absurd rfl hh
  | 2, _, hh => exact absurd rfl hh
  | n + 3, _, _ => rfl

/-- Witness for claim C9 at slot 3. -/
theorem claim9_witness :
    load_slot_secret 3 (fun _ => some "aa") (fun _ => some "bb")
      = (Except.error ResolutionError.invalidSlot, []) :=
  claim9_invalid_slot 3 (by omega) (by omega) (fun _ => some "aa") (fun _ => some "bb")

/-! ## Trimming (claim C10) -/

/-- ASCII whitespace scalar values. -/
def asciiWsB (c : Nat) : Bool := [0x09, 0x0A, 0x0B, 0x0C, 0x0D, 0x20].contains c

/-- Trimming restricted to ASCII whitespace, as the claim reads. -/
def asciiTrim (l : List Nat) : List Nat :=
  ((l.dropWhile asciiWsB).reverse.dropWhile asciiWsB).reverse

theorem aws_imp_ws (c : Nat) (h : asciiWsB c = true) : wsB c = true := by
  unfold asciiWsB at h
  simp at h
  rcases h with rfl | rfl | rfl | rfl | rfl | rfl <;> rfl

theorem dropWhile_append_of_all (p : Nat → Bool) (pre x : List Nat)
    (h : ∀ c ∈ pre, p c = true) : (pre ++ x).dropWhile p = x.dropWhile p := by
  induction pre with
  | nil => rfl
  | cons a t ih =>
    rw [List.cons_append, List.dropWhile_cons, h a (by simp)]
    simpa using ih (fun c hc => h c (by simp [hc]))

/-- Dropping an all-whitespace prefix and suffix does not change the
result of trimming. -/
theorem trim_append_ws (pre m suf : List Nat) (hpre : ∀ c ∈ pre, wsB c = true)
    (hsuf : ∀ c ∈ suf, wsB c = true) :
    trimCps (pre ++ (m ++ suf)) = trimCps m := by
  unfold trimCps
  rw [dropWhile_append_of_all wsB pre (m ++ suf) hpre, List.dropWhile_append]
  by_cases hm : (m.dropWhile wsB).isEmpty = true
  · rw [if_pos hm]
    have hsufnil : suf.dropWhile wsB = [] := List.dropWhile_eq_nil_iff.mpr hsuf
    have hmnil : m.dropWhile wsB = [] := List.isEmpty_iff.mp hm
    rw [hsufnil, hmnil]
  · rw [if_neg hm, List.reverse_append,
      dropWhile_append_of_all wsB suf.reverse (m.dropWhile wsB).reverse
        (fun c hc => hsuf c (List.mem_reverse.mp hc))]

theorem trim_asciiTrim (s : List Nat) : trimCps (asciiTrim s) = trimCps s := by
  have hsplit : s = s.takeWhile asciiWsB ++
      (asciiTrim s ++ ((s.dropWhile asciiWsB).reverse.takeWhile asciiWsB).reverse) := by
    conv_lhs => rw [← List.takeWhile_append_dropWhile asciiWsB s]
    congr 1
    conv_lhs => rw [← List.reverse_reverse (s.dropWhile asciiWsB),
      ← List.takeWhile_append_dropWhile asciiWsB (s.dropWhile asciiWsB).reverse]
    rw [List.reverse_append]
    rfl
  have hpre : ∀ c ∈ s.takeWhile asciiWsB, wsB c = true :=
    fun c hc => aws_imp_ws c (List.mem_takeWhile_imp hc)
  have hsuf : ∀ c ∈ ((s.dropWhile asciiWsB).reverse.takeWhile asciiWsB).reverse,
      wsB c = true :=
    fun c hc => aws_imp_ws c (List.mem_takeWhile_imp (List.mem_reverse.mp hc))
  conv_rhs => rw [hsplit]
  exact (trim_append_ws _ _ _ hpre hsuf).symm

/-- Claim C10: `from_hex` strips leading and trailing ASCII whitespace
before validating and decoding, so pre-trimming is invisible; inputs
whose trimmed content is valid even-length hex decode successfully, and
whitespace-only input decodes to the empty byte sequence. -/
theorem claim10_whitespace :
    (∀ s : List Nat, from_hex s = from_hex (asciiTrim s)) ∧
    from_hex (strCps " ab \n") = .ok [0xab] ∧
    (∀ s : List Nat, (∀ c ∈ s, asciiWsB c = true) → from_hex s = .ok []) := by
  refine ⟨?_, rfl, ?_⟩
  · intro s
    have h := trim_asciiTrim s
    simp only [from_hex, h]
  · intro s hws
    have htrim : trimCps s = [] := by
      unfold trimCps
      rw [List.dropWhile_eq_nil_iff.mpr (fun c hc => aws_imp_ws c (hws c hc))]
      rfl
    simp only [from_hex, htrim]
    rfl

/-- Witness for claim C10: an input with surrounding whitespace, and a
whitespace-only input. -/
theorem claim10_witness :
    from_hex (strCps "  ab\t") = from_hex (asciiTrim (strCps "  ab\t")) ∧
    from_hex (strCps " \t\n") = .ok [] :=
  ⟨claim10_whitespace.1 (strCps "  ab\t"),
   claim10_whitespace.2.2 (strCps " \t\n") (by decide)⟩
